import Mathlib

/-!
# Verification of the fair_recommendations committee-voting engine

Shallow embedding of the repository's Python sources:

* `pjr_ejr.py` — checkers for Justified Representation (JR), Proportional
  Justified Representation (PJR) and Extended Justified Representation (EJR),
  together with the backtracking search that partitions a voter group into
  disjoint cohesive subgroups.
* `LS-PAV.py` — the PAV score of a committee, the single-swap local improvement
  step and the local-search loop.
* `prefix-jr.py` — the recursive enumeration of all full rankings every prefix
  of which passes the JR eligibility filter.
* `advanced_example.py` — the worked 9-voter example profile.

Voters and candidates are both modelled as natural numbers.  A profile (a
Python dict mapping a voter to a set of approved candidates) is modelled as an
association list `List (ℕ × Finset ℕ)`; dict keys are unique, which appears as
`Nodup` hypotheses on the list of voters where a proof needs it.  The Python
float quota `num_voters / committee_size` is modelled as a rational number;
Python's `int()` truncation of a non-negative float is `Int.toNat ∘ Int.floor`.
-/

/-- A voter's approval set, looked up in the profile association list
(`approvals[voter]` in the source; voters are always drawn from the profile's
own keys, so the default `∅` is never exercised by the code paths we model). -/
def approvalsOf (A : List (ℕ × Finset ℕ)) (v : ℕ) : Finset ℕ :=
  ((A.find? (fun p => p.1 == v)).map Prod.snd).getD ∅

/-- The candidate universe of a profile: the union of all approval sets
(the `candidates` set built at the top of `check_jr` / `check_pjr`). -/
def candidatesOf (A : List (ℕ × Finset ℕ)) : Finset ℕ :=
  A.foldl (fun acc p => acc ∪ p.2) ∅

/-- The supporters of candidate `c`: the voters whose approval set contains
`c`, in profile order (the `supporters` loop of `check_jr`). -/
def supportersOf (A : List (ℕ × Finset ℕ)) (c : ℕ) : List ℕ :=
  (A.filter (fun p => decide (c ∈ p.2))).map Prod.fst

/-- The union of the approval sets of the supporters of `c`
(the `group_approvals` accumulation in `check_jr` / `check_pjr`). -/
def supporterUnionOf (A : List (ℕ × Finset ℕ)) (c : ℕ) : Finset ℕ :=
  (A.filter (fun p => decide (c ∈ p.2))).foldl (fun acc p => acc ∪ p.2) ∅

/-- The union of the approval sets of an explicit list of voters
(the `group_approvals` accumulation in `check_ejr`). -/
def unionApprovals (A : List (ℕ × Finset ℕ)) (G : List ℕ) : Finset ℕ :=
  G.foldl (fun acc v => acc ∪ approvalsOf A v) ∅

/-- `check_jr` from `pjr_ejr.py`: the loop over the candidate set returns
`False` as soon as one candidate has at least `quota = num_voters /
committee_size` supporters whose pooled approvals miss the committee, and
returns `True` after exhausting the set, i.e. it decides the bounded `∀`. -/
def check_jr (A : List (ℕ × Finset ℕ)) (committee : Finset ℕ)
    (num_voters committee_size : ℕ) : Bool :=
  let quota : ℚ := (num_voters : ℚ) / (committee_size : ℚ)
  decide (∀ c ∈ candidatesOf A,
    quota ≤ ((supportersOf A c).length : ℚ) →
      supporterUnionOf A c ∩ committee ≠ ∅)

/-- `check_pjr` from `pjr_ejr.py`: for every `i` in `1..committee_size` and
every candidate with at least `i * quota` supporters, the union of the
supporters' approvals must contribute at least `i` committee members;
the nested fail-fast loops decide the bounded `∀`. -/
def check_pjr (A : List (ℕ × Finset ℕ)) (committee : Finset ℕ)
    (num_voters committee_size : ℕ) : Bool :=
  let quota : ℚ := (num_voters : ℚ) / (committee_size : ℚ)
  decide (∀ i ∈ List.range' 1 committee_size, ∀ c ∈ candidatesOf A,
    (i : ℚ) * quota ≤ ((supportersOf A c).length : ℚ) →
      i ≤ (supporterUnionOf A c ∩ committee).card)

/-- `_is_cohesive_subgroup` from `pjr_ejr.py`: a non-empty group of voters is
cohesive when the intersection of all members' approval sets is non-empty. -/
def is_cohesive_subgroup (A : List (ℕ × Finset ℕ)) : List ℕ → Bool
  | [] => false
  | v :: rest =>
      decide ((rest.foldl (fun acc u => acc ∩ approvalsOf A u) (approvalsOf A v)) ≠ ∅)

/-- `itertools.combinations(l, s)`: all subsequences of `l` of length `s`
(the enumeration order differs from Python's, which never affects the
boolean verdicts we model). -/
def combinations (l : List ℕ) (s : ℕ) : List (List ℕ) :=
  l.sublists.filter (fun t => t.length == s)

/-- Python `int()` applied to a non-negative rational: truncation, i.e.
the floor clamped into ℕ. -/
def ratToNat (q : ℚ) : ℕ := (⌊q⌋).toNat

/-- `_find_partition_recursive` from `pjr_ejr.py`: backtracking search that
tries to split `remaining` into `needed` disjoint cohesive subgroups, each of
size at least `minSize`, using every remaining voter.  (The source's
`current_partition` accumulator and always-zero `start_idx` argument do not
influence the returned boolean and are omitted.) -/
def find_partition_recursive (A : List (ℕ × Finset ℕ)) (minSize : ℕ) :
    (remaining : List ℕ) → (needed : ℕ) → Bool
  | remaining, 0 => remaining.length == 0
  | remaining, needed + 1 =>
      if remaining.length < (needed + 1) * minSize then
        false
      else
        let maxReasonable := remaining.length - needed * minSize
        (List.range' minSize (maxReasonable + 1 - minSize)).any (fun size =>
          (combinations remaining size).any (fun sub =>
            is_cohesive_subgroup A sub &&
              find_partition_recursive A minSize
                (remaining.filter (fun v => decide (v ∉ sub))) needed))

/-- `can_partition_into_cohesive_subgroups` from `pjr_ejr.py`. -/
def can_partition_into_cohesive_subgroups (G : List ℕ) (A : List (ℕ × Finset ℕ))
    (num_subgroups : ℕ) (quota : ℚ) : Bool :=
  if (G.length : ℚ) < (num_subgroups : ℚ) * quota then
    false
  else
    find_partition_recursive A (ratToNat quota) G num_subgroups

/-- `range(start, num_voters + 1)`: the group sizes scanned by `check_ejr`. -/
def groupSizeRange (start num_voters : ℕ) : List ℕ :=
  List.range' start (num_voters + 1 - start)

/-- `check_ejr` from `pjr_ejr.py`: for every `i` in `1..committee_size`, every
group size from `int(i * quota)` to `num_voters`, and every voter group of that
size, if the group can be partitioned into `i` cohesive subgroups then the
union of the group's approvals must contribute at least `i` committee members;
the nested fail-fast loops decide the bounded `∀`. -/
def check_ejr (A : List (ℕ × Finset ℕ)) (committee : Finset ℕ)
    (num_voters committee_size : ℕ) : Bool :=
  let quota : ℚ := (num_voters : ℚ) / (committee_size : ℚ)
  let voters := A.map Prod.fst
  decide (∀ i ∈ List.range' 1 committee_size,
    ∀ group_size ∈ groupSizeRange (ratToNat ((i : ℚ) * quota)) num_voters,
      ∀ voter_group ∈ combinations voters group_size,
        can_partition_into_cohesive_subgroups voter_group A i quota = true →
          i ≤ (unionApprovals A voter_group ∩ committee).card)

/-!
## Kernel-evaluable forms of the checkers

Batteries marks `Rat.mul`, `Rat.add` and `Rat.inv` `@[irreducible]`, so the
rational quota comparisons above do not reduce under `decide`.  The `_ev`
variants below replace every comparison with the equivalent natural-number
comparison (cross-multiplying by the positive `committee_size`); they are
proved equal to the source-faithful checkers whenever `committee_size > 0`
and are used to evaluate the checkers on concrete profiles. -/

/-- Kernel-evaluable form of `check_jr` (same verdict for a positive
committee size, see `check_jr_ev_eq`). -/
def check_jr_ev (A : List (ℕ × Finset ℕ)) (committee : Finset ℕ)
    (num_voters committee_size : ℕ) : Bool :=
  decide (∀ c ∈ candidatesOf A,
    num_voters ≤ (supportersOf A c).length * committee_size →
      supporterUnionOf A c ∩ committee ≠ ∅)

/-- Kernel-evaluable form of `check_pjr` (same verdict for a positive
committee size, see `check_pjr_ev_eq`). -/
def check_pjr_ev (A : List (ℕ × Finset ℕ)) (committee : Finset ℕ)
    (num_voters committee_size : ℕ) : Bool :=
  decide (∀ i ∈ List.range' 1 committee_size, ∀ c ∈ candidatesOf A,
    i * num_voters ≤ (supportersOf A c).length * committee_size →
      i ≤ (supporterUnionOf A c ∩ committee).card)

/-- Kernel-evaluable form of `can_partition_into_cohesive_subgroups` at quota
`num_voters / committee_size` (same verdict for a positive committee size, see
`can_partition_ev_eq`). -/
def can_partition_ev (G : List ℕ) (A : List (ℕ × Finset ℕ))
    (num_subgroups num_voters committee_size : ℕ) : Bool :=
  if G.length * committee_size < num_subgroups * num_voters then
    false
  else
    find_partition_recursive A (num_voters / committee_size) G num_subgroups

/-- Kernel-evaluable form of `check_ejr` (same verdict for a positive
committee size, see `check_ejr_ev_eq`). -/
def check_ejr_ev (A : List (ℕ × Finset ℕ)) (committee : Finset ℕ)
    (num_voters committee_size : ℕ) : Bool :=
  let voters := A.map Prod.fst
  decide (∀ i ∈ List.range' 1 committee_size,
    ∀ group_size ∈ groupSizeRange (i * num_voters / committee_size) num_voters,
      ∀ voter_group ∈ combinations voters group_size,
        can_partition_ev voter_group A i num_voters committee_size = true →
          i ≤ (unionApprovals A voter_group ∩ committee).card)

/-- Python `int()` of a non-negative rational agrees with `Nat.floor`. -/
lemma ratToNat_eq_natFloor (q : ℚ) : ratToNat q = ⌊q⌋₊ := Int.floor_toNat q

/-- The truncated quota is natural-number division. -/
lemma ratToNat_div (n k : ℕ) : ratToNat ((n : ℚ) / (k : ℚ)) = n / k := by
  rw [ratToNat_eq_natFloor, Nat.floor_div_nat, Nat.floor_natCast]

/-- The truncated `i * quota` used by `check_ejr` is `i * n / k`. -/
lemma ratToNat_mul_div (i n k : ℕ) :
    ratToNat ((i : ℚ) * ((n : ℚ) / (k : ℚ))) = i * n / k := by
  have h : (i : ℚ) * ((n : ℚ) / (k : ℚ)) = ((i * n : ℕ) : ℚ) / (k : ℚ) := by
    push_cast; ring
  rw [h, ratToNat_div]

/-- Quota comparison by cross-multiplication. -/
lemma quota_le_iff {k : ℕ} (hk : 0 < k) (n len : ℕ) :
    ((n : ℚ) / (k : ℚ) ≤ (len : ℚ)) ↔ n ≤ len * k := by
  have hk' : (0 : ℚ) < (k : ℚ) := by exact_mod_cast hk
  rw [div_le_iff₀ hk']
  exact_mod_cast Iff.rfl

/-- Comparison with `i * quota` by cross-multiplication. -/
lemma mul_quota_le_iff {k : ℕ} (hk : 0 < k) (i n len : ℕ) :
    ((i : ℚ) * ((n : ℚ) / (k : ℚ)) ≤ (len : ℚ)) ↔ i * n ≤ len * k := by
  have h : (i : ℚ) * ((n : ℚ) / (k : ℚ)) = ((i * n : ℕ) : ℚ) / (k : ℚ) := by
    push_cast; ring
  rw [h, quota_le_iff hk]

/-- Strict comparison against `m * quota` by cross-multiplication. -/
lemma lt_mul_quota_iff {k : ℕ} (hk : 0 < k) (g m n : ℕ) :
    ((g : ℚ) < (m : ℚ) * ((n : ℚ) / (k : ℚ))) ↔ g * k < m * n := by
  have h : (m : ℚ) * ((n : ℚ) / (k : ℚ)) = ((m * n : ℕ) : ℚ) / (k : ℚ) := by
    push_cast; ring
  have hk' : (0 : ℚ) < (k : ℚ) := by exact_mod_cast hk
  rw [h, lt_div_iff₀ hk']
  exact_mod_cast Iff.rfl

lemma check_jr_ev_eq (A : List (ℕ × Finset ℕ)) (W : Finset ℕ) {n k : ℕ}
    (hk : 0 < k) : check_jr_ev A W n k = check_jr A W n k := by
  unfold check_jr check_jr_ev
  refine decide_eq_decide.mpr ?_
  exact forall_congr' fun c => forall_congr' fun _ =>
    imp_congr_left (quota_le_iff hk n _).symm

lemma check_pjr_ev_eq (A : List (ℕ × Finset ℕ)) (W : Finset ℕ) {n k : ℕ}
    (hk : 0 < k) : check_pjr_ev A W n k = check_pjr A W n k := by
  unfold check_pjr check_pjr_ev
  refine decide_eq_decide.mpr ?_
  exact forall_congr' fun i => forall_congr' fun _ =>
    forall_congr' fun c => forall_congr' fun _ =>
      imp_congr_left (mul_quota_le_iff hk i n _).symm

lemma can_partition_ev_eq (G : List ℕ) (A : List (ℕ × Finset ℕ)) {n k : ℕ}
    (m : ℕ) (hk : 0 < k) :
    can_partition_ev G A m n k =
      can_partition_into_cohesive_subgroups G A m ((n : ℚ) / (k : ℚ)) := by
  unfold can_partition_ev can_partition_into_cohesive_subgroups
  rw [ratToNat_div]
  exact if_congr (lt_mul_quota_iff hk G.length m n).symm rfl rfl

lemma check_ejr_ev_eq (A : List (ℕ × Finset ℕ)) (W : Finset ℕ) {n k : ℕ}
    (hk : 0 < k) : check_ejr_ev A W n k = check_ejr A W n k := by
  unfold check_ejr check_ejr_ev
  refine decide_eq_decide.mpr ?_
  simp only [ratToNat_mul_div]
  refine forall_congr' fun i => forall_congr' fun _ =>
    forall_congr' fun gs => forall_congr' fun _ =>
      forall_congr' fun G => forall_congr' fun _ =>
        imp_congr_left ?_
  rw [can_partition_ev_eq G A i hk]

/-!
## `LS-PAV.py`: PAV scoring and local search

Preference profiles here map a voter to a *list* of approved candidates
(`preferences` in the source is a dict of lists). -/

/-- `calculate_PAV_score` from `LS-PAV.py`: every voter walks the committee,
incrementing a representation counter and adding `1 / counter` for each
committee member it approves; the total is summed over all voters.  The
source's float arithmetic is modelled exactly over `ℚ`. -/
def calculate_PAV_score (committee : List ℕ) (preferences : List (ℕ × List ℕ)) : ℚ :=
  (preferences.map (fun p =>
    (committee.foldl (fun (st : ℕ × ℚ) cand =>
      if cand ∈ p.2 then (st.1 + 1, st.2 + 1 / ((st.1 : ℚ) + 1)) else st)
      (0, 0)).2)).sum

/-- `profitable_deviation` from `LS-PAV.py`: `committee_2` beats
`committee_1` by at least `epsilon`. -/
def profitable_deviation (committee_1 committee_2 : List ℕ)
    (preferences : List (ℕ × List ℕ)) (epsilon : ℚ) : Bool :=
  decide (epsilon ≤ calculate_PAV_score committee_2 preferences -
    calculate_PAV_score committee_1 preferences)

/-- `find_better_commitee` from `LS-PAV.py` (source spelling kept): scan the
committee positions in order and, within each, the non-member candidates in
candidate-list order; return the first single swap that is a profitable
deviation, or the initial committee if none is. -/
def find_better_commitee (initial_commitee : List ℕ)
    (preferences : List (ℕ × List ℕ)) (candidates : List ℕ) (epsilon : ℚ) :
    List ℕ :=
  let remaining_candidates := candidates.filter (fun c => decide (c ∉ initial_commitee))
  match (List.range initial_commitee.length).findSome? (fun i =>
    remaining_candidates.findSome? (fun c =>
      let alternative_commitee := initial_commitee.set i c
      if profitable_deviation initial_commitee alternative_commitee preferences epsilon then
        some alternative_commitee
      else
        none)) with
  | some alt => alt
  | none => initial_commitee

/-- The seed committee of `LS_PAV`: the first `committee_size` candidates. -/
def LS_PAV_init (candidates : List ℕ) (committee_size : ℕ) : List ℕ :=
  candidates.take committee_size

/-- One pass of the `LS_PAV` while-loop body:
`find_better_commitee(c, preferences, candidates, 0)`. -/
def LS_PAV_step (candidates : List ℕ) (preferences : List (ℕ × List ℕ))
    (c : List ℕ) : List ℕ :=
  find_better_commitee c preferences candidates 0

/-- The `LS_PAV` while-loop guard:
`profitable_deviation(c, find_better_commitee(c, ...), preferences, 0.3)`. -/
def LS_PAV_guard (candidates : List ℕ) (preferences : List (ℕ × List ℕ))
    (c : List ℕ) : Bool :=
  profitable_deviation c (LS_PAV_step candidates preferences c) preferences (3/10)

/-- The harmonic number `1 + 1/2 + ... + 1/r` (`0` when `r = 0`): the
per-voter PAV contribution for `r` approved committee members. -/
def harmonicSum (r : ℕ) : ℚ :=
  (Finset.range r).sum (fun j => 1 / ((j : ℚ) + 1))

/-!
## `prefix-jr.py`: rankings whose every prefix passes the JR filter

Ordinal preference profiles map a voter to a full preference list.  The
Python sets of alternatives are modelled as deduplicated lists in first
occurrence order (exactly the iteration order of the source's dicts), and
`remaining_alts` as a duplicate-free list. -/

/-- `get_approval_sets` from `prefix-jr.py`: each voter's approval set is the
top-`k` of its preference list. -/
def get_approval_sets (preferences : List (ℕ × List ℕ)) (k : ℕ) :
    List (ℕ × List ℕ) :=
  preferences.map (fun p => (p.1, p.2.take k))

/-- A voter's approval list within a set of approval sets (dict lookup). -/
def approvalListOf (asets : List (ℕ × List ℕ)) (u : ℕ) : List ℕ :=
  ((asets.find? (fun p => p.1 == u)).map Prod.snd).getD []

/-- All alternatives occurring in the approval sets, in first-occurrence
order (the key order of the source's `num_approvals_dict`). -/
def altsList (asets : List (ℕ × List ℕ)) : List ℕ :=
  ((asets.map Prod.snd).flatten).dedup

/-- The voters approving an alternative, in voter order (the lists stored in
`num_approvals_dict`). -/
def approversOf (asets : List (ℕ × List ℕ)) (alt : ℕ) : List ℕ :=
  (asets.filter (fun p => decide (alt ∈ p.2))).map Prod.fst

/-- `find_cohesive_groups` from `prefix-jr.py` (the cohesive-group component
of its result): for each alternative whose top-`k` approver count is at least
`n / k`, the list of its approvers. -/
def find_cohesive_groups (preferences : List (ℕ × List ℕ)) (k : ℕ) :
    List (List ℕ) :=
  let asets := get_approval_sets preferences k
  let n := asets.length
  (altsList asets).filterMap (fun alt =>
    let approvals := approversOf asets alt
    if ((n : ℚ) / (k : ℚ)) ≤ (approvals.length : ℚ) then some approvals else none)

/-- `satisfies_jr` from `prefix-jr.py`: with no cohesive group every top-`k`
alternative is eligible; otherwise the eligible alternatives are the union of
the top-`k` approvals of every member of every cohesive group. -/
def satisfies_jr (preferences : List (ℕ × List ℕ)) (k : ℕ) : Finset ℕ :=
  let asets := get_approval_sets preferences k
  let groups := find_cohesive_groups preferences k
  if groups.isEmpty then
    (altsList asets).toFinset
  else
    groups.foldl (fun acc g =>
      g.foldl (fun acc2 u => acc2 ∪ (approvalListOf asets u).toFinset) acc) ∅

/-- `branch_all` from `prefix-jr.py`: grow the ranking built so far by every
eligible remaining alternative (eligible for position `built.length + 1`
according to `satisfies_jr`) and recurse; a branch with no remaining
alternatives contributes its full ranking. -/
def branch_all (preferences : List (ℕ × List ℕ)) :
    (built : List ℕ) → (remaining : List ℕ) → List (List ℕ)
  | built, remaining =>
    if remaining.isEmpty then
      [built]
    else
      let valid := remaining.filter
        (fun a => decide (a ∈ satisfies_jr preferences (built.length + 1)))
      valid.attach.flatMap (fun a =>
        have _h : (remaining.erase a.1).length < remaining.length := by
          have ha : a.1 ∈ remaining := (List.mem_filter.mp a.2).1
          have : remaining.length ≠ 0 := by
            intro h0
            exact absurd (List.eq_nil_of_length_eq_zero h0 ▸ ha) (List.not_mem_nil a.1)
          rw [List.length_erase_of_mem ha]
          exact Nat.pred_lt this
        branch_all preferences (built ++ [a.1]) (remaining.erase a.1))
  termination_by _ remaining => remaining.length

/-- `find_all_prefix_jr_rankings` from `prefix-jr.py` (renamed): branch from
the empty ranking over all alternatives of the profile. -/
def find_all_rankings_jr (preferences : List (ℕ × List ℕ)) : List (List ℕ) :=
  branch_all preferences [] (((preferences.map Prod.snd).flatten).dedup)

/-!
## Example profiles used by concrete claims

Candidates are renamed `a,b,c,d,e,f ↦ 0,1,2,3,4,5`; voters `v1.. ↦ 1..`. -/

/-- The 9-voter profile of `analyze_example_1` in `advanced_example.py`:
three blocs of three voters approving `{a,b}`, `{c,d}`, `{e,f}`. -/
def exampleProfile1 : List (ℕ × Finset ℕ) :=
  [(1, {0, 1}), (2, {0, 1}), (3, {0, 1}),
   (4, {2, 3}), (5, {2, 3}), (6, {2, 3}),
   (7, {4, 5}), (8, {4, 5}), (9, {4, 5})]

/-- Three voters `v1 ↦ {a,b}`, `v2 ↦ {a,c}`, `v3 ↦ {d,e,f}`: with committee
size 5 the quota is `3/5 < 1` and the EJR partition search cannot form enough
non-empty subgroups, while PJR still counts candidate `a`'s supporters. -/
def gapProfile : List (ℕ × Finset ℕ) :=
  [(1, {0, 1}), (2, {0, 2}), (3, {3, 4, 5})]

/-- Five voters `v1 ↦ {x}`, `v2,v3,v4 ↦ {y}`, `v5 ↦ {z,w}` (with
`x,y,z,w ↦ 0,1,2,3`): quota `5/3` truncates to `1`, so the code accepts the
partition `{v1} ∪ {v2,v3,v4}` whose first part is smaller than the quota. -/
def truncProfile : List (ℕ × Finset ℕ) :=
  [(1, {0}), (2, {1}), (3, {1}), (4, {1}), (5, {2, 3})]

lemma one_mem_range' {k : ℕ} (hk : 0 < k) : 1 ∈ List.range' 1 k :=
  List.mem_range'.mpr ⟨0, hk, by simp⟩

/-- **C6.** `can_partition_into_cohesive_subgroups` returns `False` whenever
`|G| < num_subgroups * quota`, and the recursive search returns `False`
whenever the remaining voters number fewer than `needed * minSize`. -/
theorem can_partition_short_circuit (G : List ℕ) (A : List (ℕ × Finset ℕ))
    (m : ℕ) (quota : ℚ) (remaining : List ℕ) (needed minSize : ℕ) :
    ((G.length : ℚ) < (m : ℚ) * quota →
      can_partition_into_cohesive_subgroups G A m quota = false) ∧
    (remaining.length < needed * minSize →
      find_partition_recursive A minSize remaining needed = false) := by
  constructor
  · intro h
    unfold can_partition_into_cohesive_subgroups
    rw [if_pos h]
  · intro h
    match needed with
    | 0 => exact absurd h (by simp)
    | needed + 1 =>
        unfold find_partition_recursive
        rw [if_pos h]

/-- Witness for `can_partition_short_circuit` at concrete inputs. -/
theorem can_partition_short_circuit_witness :
    ((([1, 2] : List ℕ).length : ℚ) < (3 : ℚ) * 1 ∧
      can_partition_into_cohesive_subgroups [1, 2] [] 3 1 = false) ∧
    (([1] : List ℕ).length < 2 * 1 ∧
      find_partition_recursive [] 1 [1] 2 = false) :=
  ⟨⟨by norm_num, (can_partition_short_circuit [1, 2] [] 3 1 [1] 2 1).1 (by norm_num)⟩,
   ⟨by norm_num, (can_partition_short_circuit [1, 2] [] 3 1 [1] 2 1).2 (by norm_num)⟩⟩

/-- **C4.** `check_jr` returns `False` iff some candidate approved by at
least `quota = num_voters / committee_size` voters has all of its
supporters' pooled approvals outside the committee. -/
theorem check_jr_false_iff (A : List (ℕ × Finset ℕ)) (W : Finset ℕ)
    (n k : ℕ) (_hk : 0 < k) :
    check_jr A W n k = false ↔
      ∃ c ∈ candidatesOf A,
        (n : ℚ) / (k : ℚ) ≤ ((supportersOf A c).length : ℚ) ∧
          supporterUnionOf A c ∩ W = ∅ := by
  unfold check_jr
  simp only [decide_eq_false_iff_not]
  push_neg
  rfl

/-- Witness for `check_jr_false_iff`: a two-voter profile whose second
bloc is unrepresented. -/
theorem check_jr_false_iff_witness :
    0 < 2 ∧
      (check_jr [(1, ({1} : Finset ℕ)), (2, {2})] {1} 2 2 = false ↔
        ∃ c ∈ candidatesOf [(1, ({1} : Finset ℕ)), (2, {2})],
          (2 : ℚ) / (2 : ℚ) ≤ ((supportersOf [(1, ({1} : Finset ℕ)), (2, {2})] c).length : ℚ) ∧
            supporterUnionOf [(1, ({1} : Finset ℕ)), (2, {2})] c ∩ {1} = ∅) :=
  ⟨by norm_num, check_jr_false_iff [(1, {1}), (2, {2})] {1} 2 2 (by norm_num)⟩

/-- **C1 (counterexample).** On `gapProfile` with committee `{a,b,d,e,f}`,
3 voters and committee size 5, `check_ejr` returns `True` while `check_pjr`
returns `False`: the claimed EJR ⟹ PJR implication fails on the code. -/
theorem ejr_not_imp_pjr_cex :
    check_ejr gapProfile {0, 1, 3, 4, 5} 3 5 = true ∧
    check_pjr gapProfile {0, 1, 3, 4, 5} 3 5 = false := by
  constructor
  · rw [← check_ejr_ev_eq gapProfile {0, 1, 3, 4, 5} (by norm_num)]
    decide
  · rw [← check_pjr_ev_eq gapProfile {0, 1, 3, 4, 5} (by norm_num)]
    decide

/-- **C1 (amended).** The surviving half of the implication chain: whenever
`check_pjr` returns `True`, so does `check_jr` (the `i = 1` case of the PJR
scan is exactly the JR test). -/
theorem check_pjr_implies_jr (A : List (ℕ × Finset ℕ)) (W : Finset ℕ)
    (n k : ℕ) (hk : 0 < k) (h : check_pjr A W n k = true) :
    check_jr A W n k = true := by
  simp only [check_pjr, decide_eq_true_eq] at h
  simp only [check_jr, decide_eq_true_eq]
  intro c hc hq
  have h1 := h 1 (one_mem_range' hk) c hc (by rwa [Nat.cast_one, one_mul])
  intro hemp
  rw [hemp] at h1
  simp at h1

/-- Witness for `check_pjr_implies_jr` at a concrete profile. -/
theorem check_pjr_implies_jr_witness :
    0 < 3 ∧ check_pjr exampleProfile1 {0, 2, 4} 9 3 = true ∧
      check_jr exampleProfile1 {0, 2, 4} 9 3 = true := by
  refine ⟨by norm_num, ?_, ?_⟩
  · rw [← check_pjr_ev_eq exampleProfile1 {0, 2, 4} (by norm_num)]
    decide
  · refine check_pjr_implies_jr exampleProfile1 {0, 2, 4} 9 3 (by norm_num) ?_
    rw [← check_pjr_ev_eq exampleProfile1 {0, 2, 4} (by norm_num)]
    decide

/-!
## Python call semantics of the checkers (C7)

The repository performs no input validation: no `InvalidConfiguration`
condition (or any exception class of its own) exists anywhere in the source.
The only failure a degenerate configuration can produce is Python's
`ZeroDivisionError` from `quota = num_voters / committee_size` when
`committee_size = 0`; every other input is processed normally. -/

/-- Running `check_jr` with Python exception semantics: the quota division
raises `ZeroDivisionError` when `committee_size = 0`, otherwise the checker
returns its boolean verdict. -/
def check_jr_run (A : List (ℕ × Finset ℕ)) (W : Finset ℕ)
    (num_voters committee_size : ℕ) : Except String Bool :=
  if committee_size = 0 then
    Except.error "ZeroDivisionError"
  else
    Except.ok (check_jr A W num_voters committee_size)

/-- **C7 (code evaluation).** The code does not fail with an
`InvalidConfiguration` error on any of the claimed inputs: with
`committee_size = 0` it raises `ZeroDivisionError`; with an empty profile it
computes the verdict `True`; with a committee larger than the candidate
universe it also computes a verdict. -/
theorem invalid_config_behavior :
    check_jr_run [] ∅ 0 0 = Except.error "ZeroDivisionError" ∧
    check_jr_run [] ∅ 0 1 = Except.ok true ∧
    check_jr_run [(1, {1})] {1, 2} 1 2 = Except.ok true := by
  refine ⟨rfl, ?_, ?_⟩
  · have h : check_jr [] ∅ 0 1 = true := by decide
    unfold check_jr_run
    rw [if_neg (by norm_num), h]
  · have h : check_jr [(1, {1})] {1, 2} 1 2 = true := by
      rw [← check_jr_ev_eq [(1, {1})] {1, 2} (by norm_num)]
      decide
    unfold check_jr_run
    rw [if_neg (by norm_num), h]

/-!
## The worked 9-voter example (C3) -/

set_option maxRecDepth 100000 in
set_option maxHeartbeats 12000000 in
/-- **C3.** On the 9-voter three-bloc profile with committee size 3, the
committee `{a,c,e}` satisfies JR, PJR and EJR, while `{a,b,c}` fails all
three checkers (the `{e,f}` bloc of three voters meets the quota 3 and has
no representative). -/
theorem example1_verdicts :
    check_jr exampleProfile1 {0, 2, 4} 9 3 = true ∧
    check_pjr exampleProfile1 {0, 2, 4} 9 3 = true ∧
    check_ejr exampleProfile1 {0, 2, 4} 9 3 = true ∧
    check_jr exampleProfile1 {0, 1, 2} 9 3 = false ∧
    check_pjr exampleProfile1 {0, 1, 2} 9 3 = false ∧
    check_ejr exampleProfile1 {0, 1, 2} 9 3 = false := by
  refine ⟨?_, ?_, ?_, ?_, ?_, ?_⟩
  · rw [← check_jr_ev_eq exampleProfile1 {0, 2, 4} (by norm_num)]; decide
  · rw [← check_pjr_ev_eq exampleProfile1 {0, 2, 4} (by norm_num)]; decide
  · rw [← check_ejr_ev_eq exampleProfile1 {0, 2, 4} (by norm_num)]; decide
  · rw [← check_jr_ev_eq exampleProfile1 {0, 1, 2} (by norm_num)]; decide
  · rw [← check_pjr_ev_eq exampleProfile1 {0, 1, 2} (by norm_num)]; decide
  · rw [← check_ejr_ev_eq exampleProfile1 {0, 1, 2} (by norm_num)]; decide

/-!
## PAV score = harmonic sums (C5) -/

/-- The module-level `preferences` dict of `LS-PAV.py`
(`a1, a2, a3 ↦ 1, 2, 3`). -/
def preferencesLSPAV : List (ℕ × List ℕ) :=
  [(1, [5, 6, 3, 2]), (2, [4, 3, 5, 2]), (3, [3, 4, 2, 1])]

lemma harmonicSum_succ (n : ℕ) :
    harmonicSum (n + 1) = harmonicSum n + 1 / ((n : ℚ) + 1) := by
  unfold harmonicSum
  rw [Finset.sum_range_succ]

/-- The per-voter incremental loop of `calculate_PAV_score` computes a
difference of harmonic sums, for any starting counter and score. -/
lemma pav_fold (ap : List ℕ) :
    ∀ (committee : List ℕ) (r0 : ℕ) (s0 : ℚ),
      (committee.foldl (fun (st : ℕ × ℚ) cand =>
        if cand ∈ ap then (st.1 + 1, st.2 + 1 / ((st.1 : ℚ) + 1)) else st) (r0, s0)) =
      (r0 + (committee.filter (fun c => decide (c ∈ ap))).length,
        s0 + (harmonicSum (r0 + (committee.filter (fun c => decide (c ∈ ap))).length) -
          harmonicSum r0)) := by
  intro committee
  induction committee with
  | nil => intro r0 s0; simp
  | cons hd tl ih =>
      intro r0 s0
      by_cases hmem : hd ∈ ap
      · have hfil : (hd :: tl).filter (fun c => decide (c ∈ ap)) =
            hd :: tl.filter (fun c => decide (c ∈ ap)) := by
          simp [hmem]
        rw [List.foldl_cons, if_pos hmem, ih, hfil]
        simp only [List.length_cons, Prod.mk.injEq]
        refine ⟨by omega, ?_⟩
        have h1 : r0 + 1 + (tl.filter (fun c => decide (c ∈ ap))).length =
            r0 + ((tl.filter (fun c => decide (c ∈ ap))).length + 1) := by omega
        rw [h1, harmonicSum_succ r0]
        ring
      · have hfil : (hd :: tl).filter (fun c => decide (c ∈ ap)) =
            tl.filter (fun c => decide (c ∈ ap)) := by
          simp [hmem]
        rw [List.foldl_cons, if_neg hmem, ih, hfil]

lemma harmonicSum_zero : harmonicSum 0 = 0 := by
  simp [harmonicSum]

/-- **C5.** `calculate_PAV_score` computes, for every duplicate-free
committee, the sum over all voters of the harmonic number `1 + 1/2 + ... +
1/r` where `r` is the number of committee members the voter approves; on the
source's own committee `[4,3,2]` and preference profile the score is
`3/2 + 11/6 + 11/6 = 31/6`. -/
theorem calculate_PAV_score_harmonic :
    (∀ (committee : List ℕ) (preferences : List (ℕ × List ℕ)),
      committee.Nodup →
        calculate_PAV_score committee preferences =
          (preferences.map (fun p =>
            harmonicSum ((committee.toFinset.filter (fun c => c ∈ p.2)).card))).sum) ∧
    calculate_PAV_score [4, 3, 2] preferencesLSPAV = 31 / 6 := by
  constructor
  · intro committee preferences hnd
    unfold calculate_PAV_score
    congr 1
    apply List.map_congr_left
    intro p _
    rw [pav_fold p.2 committee 0 0]
    simp only [Nat.zero_add, zero_add, harmonicSum_zero, sub_zero]
    congr 1
    rw [← List.toFinset_card_of_nodup (hnd.filter _), List.toFinset_filter]
    congr 1
    simp
  · norm_num [calculate_PAV_score, preferencesLSPAV, List.foldl_cons, List.foldl_nil]

/-- Witness for `calculate_PAV_score_harmonic` at the source's committee. -/
theorem calculate_PAV_score_harmonic_witness :
    ([4, 3, 2] : List ℕ).Nodup ∧
      calculate_PAV_score [4, 3, 2] preferencesLSPAV =
        (preferencesLSPAV.map (fun p =>
          harmonicSum ((([4, 3, 2] : List ℕ).toFinset.filter (fun c => c ∈ p.2)).card))).sum :=
  ⟨by decide, calculate_PAV_score_harmonic.1 [4, 3, 2] preferencesLSPAV (by decide)⟩

/-!
## The local-search swap scan (C8) -/

/-- **C8.** `find_better_commitee` either returns the seed unchanged (when no
single swap improves the PAV score by at least `epsilon`), or returns the
swap at the first improving pair `(i, j)` in lexicographic scan order:
outgoing position `i` in index order, then incoming non-member `j` in
candidate order. -/
theorem find_better_commitee_first_swap (init : List ℕ)
    (preferences : List (ℕ × List ℕ)) (candidates : List ℕ) (eps : ℚ) :
    ((∀ i' < init.length, ∀ c ∈ candidates.filter (fun c => decide (c ∉ init)),
        profitable_deviation init (init.set i' c) preferences eps = false) ∧
      find_better_commitee init preferences candidates eps = init) ∨
    (∃ i, ∃ _hi : i < init.length, ∃ j,
      ∃ hj : j < (candidates.filter (fun c => decide (c ∉ init))).length,
      profitable_deviation init
          (init.set i ((candidates.filter (fun c => decide (c ∉ init))).get ⟨j, hj⟩))
          preferences eps = true ∧
        find_better_commitee init preferences candidates eps =
          init.set i ((candidates.filter (fun c => decide (c ∉ init))).get ⟨j, hj⟩) ∧
        (∀ i' < i, ∀ c ∈ candidates.filter (fun c => decide (c ∉ init)),
          profitable_deviation init (init.set i' c) preferences eps = false) ∧
        (∀ j', (hj' : j' < j) →
          profitable_deviation init
            (init.set i ((candidates.filter (fun c => decide (c ∉ init))).get
              ⟨j', Nat.lt_trans hj' hj⟩)) preferences eps = false)) := by
  set remaining := candidates.filter (fun c => decide (c ∉ init)) with hrem
  set f : ℕ → Option (List ℕ) := fun i =>
    remaining.findSome? (fun c =>
      if profitable_deviation init (init.set i c) preferences eps then
        some (init.set i c)
      else
        none) with hf
  have hdef : find_better_commitee init preferences candidates eps =
      match (List.range init.length).findSome? f with
      | some alt => alt
      | none => init := rfl
  have ite_none : ∀ (i : ℕ) (c : ℕ),
      (if profitable_deviation init (init.set i c) preferences eps then
        some (init.set i c) else none) = none →
      profitable_deviation init (init.set i c) preferences eps = false := by
    intro i c hc
    by_cases hP : profitable_deviation init (init.set i c) preferences eps
    · rw [if_pos hP] at hc; exact absurd hc (by simp)
    · exact Bool.eq_false_iff.mpr hP
  cases h : (List.range init.length).findSome? f with
  | none =>
      left
      have hall := List.findSome?_eq_none_iff.mp h
      refine ⟨?_, by rw [hdef, h]⟩
      intro i' hi' c hc
      have hfi : f i' = none := hall i' (List.mem_range.mpr hi')
      have := List.findSome?_eq_none_iff.mp hfi c hc
      exact ite_none i' c this
  | some alt =>
      right
      obtain ⟨l₁, a, l₂, hsplit, hfa, hprev⟩ := List.findSome?_eq_some_iff.mp h
      have hlen : init.length = l₁.length + (a :: l₂).length := by
        have := congrArg List.length hsplit
        simpa using this
      have hal : l₁.length < init.length := by
        simp only [List.length_cons] at hlen
        omega
      have ha : a = l₁.length := by
        have h1 : (List.range init.length).get ⟨l₁.length, by
            rw [List.length_range]; exact hal⟩ = a := by
          rw [List.get_eq_getElem]
          conv in List.range init.length => rw [hsplit]
          rw [List.getElem_append_right (Nat.le_refl l₁.length)]
          simp
        rw [List.get_eq_getElem, List.getElem_range] at h1
        exact h1.symm
      have hl₁ : l₁ = List.range l₁.length := by
        have h1 : (List.range init.length).take l₁.length = l₁ := by
          rw [hsplit]; exact List.take_left l₁ (a :: l₂)
        rw [List.take_range, Nat.min_eq_left (Nat.le_of_lt hal)] at h1
        exact h1.symm
      obtain ⟨m₁, c, m₂, hsplit2, hc, hprev2⟩ := List.findSome?_eq_some_iff.mp hfa
      have hjlen : remaining.length = m₁.length + (c :: m₂).length := by
        have := congrArg List.length hsplit2
        simpa using this
      have hj : m₁.length < remaining.length := by
        simp only [List.length_cons] at hjlen
        omega
      have hcget : remaining.get ⟨m₁.length, hj⟩ = c := by
        rw [List.get_eq_getElem]
        conv in remaining => rw [hsplit2]
        rw [List.getElem_append_right (Nat.le_refl m₁.length)]
        simp
      have hP : profitable_deviation init (init.set a c) preferences eps = true ∧
          alt = init.set a c := by
        by_cases hP : profitable_deviation init (init.set a c) preferences eps
        · rw [if_pos hP] at hc
          exact ⟨hP, (Option.some.inj hc).symm⟩
        · rw [if_neg hP] at hc
          exact absurd hc (by simp)
      refine ⟨a, ?_, m₁.length, ?_, ?_, ?_, ?_, ?_⟩
      · rw [ha]; exact hal
      · exact hj
      · rw [hcget]; exact hP.1
      · rw [hdef, h, hcget]; exact hP.2
      · intro i' hi' c' hc'
        have hi'mem : i' ∈ l₁ := by
          rw [hl₁]
          exact List.mem_range.mpr (by omega)
        have hfi : f i' = none := hprev i' hi'mem
        exact ite_none i' c' (List.findSome?_eq_none_iff.mp hfi c' hc')
      · intro j' hj'
        have hmem : remaining.get ⟨j', Nat.lt_trans hj' hj⟩ ∈ m₁ := by
          rw [List.get_eq_getElem]
          conv in remaining => rw [hsplit2]
          rw [List.getElem_append_left hj']
          exact List.getElem_mem _
        exact ite_none a _ (hprev2 _ hmem)

/-!
## Termination of the LS-PAV local search (C10) -/

lemma harmonicSum_mono {a b : ℕ} (h : a ≤ b) : harmonicSum a ≤ harmonicSum b := by
  unfold harmonicSum
  apply Finset.sum_le_sum_of_subset_of_nonneg (Finset.range_subset.mpr h)
  intro i _ _
  positivity

lemma map_sum_le_length_mul {α : Type} (l : List α) (g : α → ℚ) (B : ℚ)
    (h : ∀ p ∈ l, g p ≤ B) : (l.map g).sum ≤ (l.length : ℚ) * B := by
  induction l with
  | nil => simp
  | cons hd tl ih =>
      simp only [List.map_cons, List.sum_cons, List.length_cons]
      have h1 : g hd ≤ B := h hd (List.mem_cons_self hd tl)
      have h2 : (tl.map g).sum ≤ (tl.length : ℚ) * B :=
        ih (fun p hp => h p (List.mem_cons_of_mem hd hp))
      push_cast
      nlinarith

/-- Any committee's PAV score is at most `num_voters * H(committee length)`:
each voter's incremental contribution is a harmonic sum of at most
`committee.length` terms. -/
lemma calculate_PAV_score_le (committee : List ℕ)
    (preferences : List (ℕ × List ℕ)) :
    calculate_PAV_score committee preferences ≤
      (preferences.length : ℚ) * harmonicSum committee.length := by
  unfold calculate_PAV_score
  apply map_sum_le_length_mul
  intro p _
  rw [pav_fold p.2 committee 0 0]
  simp only [Nat.zero_add, zero_add, harmonicSum_zero, sub_zero]
  exact harmonicSum_mono (List.length_filter_le _ _)

/-- `find_better_commitee` returns the seed or a single-position update. -/
lemma find_better_commitee_cases (init : List ℕ)
    (preferences : List (ℕ × List ℕ)) (candidates : List ℕ) (eps : ℚ) :
    find_better_commitee init preferences candidates eps = init ∨
      ∃ i c, find_better_commitee init preferences candidates eps = init.set i c := by
  set remaining := candidates.filter (fun c => decide (c ∉ init)) with hrem
  set f : ℕ → Option (List ℕ) := fun i =>
    remaining.findSome? (fun c =>
      if profitable_deviation init (init.set i c) preferences eps then
        some (init.set i c)
      else
        none) with hf
  have hdef : find_better_commitee init preferences candidates eps =
      match (List.range init.length).findSome? f with
      | some alt => alt
      | none => init := rfl
  cases h : (List.range init.length).findSome? f with
  | none => left; rw [hdef, h]
  | some alt =>
      right
      obtain ⟨l₁, a, l₂, _, hfa, _⟩ := List.findSome?_eq_some_iff.mp h
      obtain ⟨m₁, c, m₂, _, hc, _⟩ := List.findSome?_eq_some_iff.mp hfa
      by_cases hP : profitable_deviation init (init.set a c) preferences eps
      · rw [if_pos hP] at hc
        exact ⟨a, c, by rw [hdef, h, ← Option.some.inj hc]⟩
      · rw [if_neg hP] at hc
        exact absurd hc (by simp)

lemma find_better_commitee_length (init : List ℕ)
    (preferences : List (ℕ × List ℕ)) (candidates : List ℕ) (eps : ℚ) :
    (find_better_commitee init preferences candidates eps).length = init.length := by
  rcases find_better_commitee_cases init preferences candidates eps with h | ⟨i, c, h⟩
  · rw [h]
  · rw [h, List.length_set]

lemma LS_PAV_iter_length (candidates : List ℕ) (preferences : List (ℕ × List ℕ))
    (c0 : List ℕ) (N : ℕ) :
    ((LS_PAV_step candidates preferences)^[N] c0).length = c0.length := by
  have hstep_len : ∀ c : List ℕ,
      (LS_PAV_step candidates preferences c).length = c.length := fun c =>
    find_better_commitee_length c preferences candidates 0
  induction N with
  | zero => rfl
  | succ n ih =>
      rw [Function.iterate_succ_apply', hstep_len, ih]

/-- **C10.** The LS-PAV loop terminates: whenever the loop guard holds the
next committee's PAV score is at least `0.3` larger, every committee's score
is bounded by `num_voters * H(committee length)`, and therefore the guard
fails after finitely many iterations from the seed committee. -/
theorem LS_PAV_terminates (candidates : List ℕ)
    (preferences : List (ℕ × List ℕ)) (committee_size : ℕ)
    (_hk : committee_size ≤ candidates.length) :
    (∀ c : List ℕ, LS_PAV_guard candidates preferences c = true →
      calculate_PAV_score c preferences + 3 / 10 ≤
        calculate_PAV_score (LS_PAV_step candidates preferences c) preferences) ∧
    (∀ c : List ℕ, calculate_PAV_score c preferences ≤
      (preferences.length : ℚ) * harmonicSum c.length) ∧
    ∃ N : ℕ, LS_PAV_guard candidates preferences
      ((LS_PAV_step candidates preferences)^[N]
        (LS_PAV_init candidates committee_size)) = false := by
  have hstep : ∀ c : List ℕ, LS_PAV_guard candidates preferences c = true →
      calculate_PAV_score c preferences + 3 / 10 ≤
        calculate_PAV_score (LS_PAV_step candidates preferences c) preferences := by
    intro c h
    unfold LS_PAV_guard profitable_deviation at h
    rw [decide_eq_true_eq] at h
    linarith
  refine ⟨hstep, fun c => calculate_PAV_score_le c preferences, ?_⟩
  by_contra hno
  push_neg at hno
  have hall : ∀ N : ℕ, LS_PAV_guard candidates preferences
      ((LS_PAV_step candidates preferences)^[N]
        (LS_PAV_init candidates committee_size)) = true := by
    intro N
    cases hb : LS_PAV_guard candidates preferences
        ((LS_PAV_step candidates preferences)^[N]
          (LS_PAV_init candidates committee_size)) with
    | false => exact absurd hb (hno N)
    | true => rfl
  set c0 := LS_PAV_init candidates committee_size with hc0
  set s0 := calculate_PAV_score c0 preferences with hs0
  set B := (preferences.length : ℚ) * harmonicSum c0.length with hB
  have hmono : ∀ N : ℕ, s0 + (N : ℚ) * (3 / 10) ≤
      calculate_PAV_score ((LS_PAV_step candidates preferences)^[N] c0) preferences := by
    intro N
    induction N with
    | zero => simp
    | succ n ih =>
        have h1 := hstep _ (hall n)
        rw [Function.iterate_succ_apply']
        push_cast
        linarith
  have hbound : ∀ N : ℕ,
      calculate_PAV_score ((LS_PAV_step candidates preferences)^[N] c0) preferences ≤ B := by
    intro N
    have := calculate_PAV_score_le
      ((LS_PAV_step candidates preferences)^[N] c0) preferences
    rwa [LS_PAV_iter_length] at this
  obtain ⟨N, hN⟩ := exists_nat_gt ((B - s0) / (3 / 10))
  have h1 : s0 + (N : ℚ) * (3 / 10) ≤ B := le_trans (hmono N) (hbound N)
  have h2 : (N : ℚ) ≤ (B - s0) / (3 / 10) := by
    rw [le_div_iff₀ (by norm_num : (0 : ℚ) < 3 / 10)]
    linarith
  linarith

/-- Witness for `LS_PAV_terminates` on a two-candidate instance. -/
theorem LS_PAV_terminates_witness :
    1 ≤ ([0, 1] : List ℕ).length ∧
      ((∀ c : List ℕ, LS_PAV_guard [0, 1] [(1, [0])] c = true →
        calculate_PAV_score c [(1, [0])] + 3 / 10 ≤
          calculate_PAV_score (LS_PAV_step [0, 1] [(1, [0])] c) [(1, [0])]) ∧
      (∀ c : List ℕ, calculate_PAV_score c [(1, [0])] ≤
        (([(1, [0])] : List (ℕ × List ℕ)).length : ℚ) * harmonicSum c.length) ∧
      ∃ N : ℕ, LS_PAV_guard [0, 1] [(1, [0])]
        ((LS_PAV_step [0, 1] [(1, [0])])^[N] (LS_PAV_init [0, 1] 1)) = false) :=
  ⟨by decide, LS_PAV_terminates [0, 1] [(1, [0])] 1 (by decide)⟩

/-!
## Correctness of the cohesive-partition backtracking search (C2)

`IsCohesivePartition` is the mathematical predicate the backtracking search
decides: the group splits into the requested number of disjoint cohesive
subgroups of the requested minimum size, using every member.  Disjointness
and exact cover are captured by requiring the concatenation of the parts to
be a permutation of the (duplicate-free) group. -/

/-- `G` can be split into `needed` cohesive subgroups, each of size at least
`minSize`, which together use every voter of `G` exactly once. -/
def IsCohesivePartition (A : List (ℕ × Finset ℕ)) (minSize : ℕ)
    (G : List ℕ) (needed : ℕ) : Prop :=
  ∃ parts : List (List ℕ), parts.length = needed ∧ parts.flatten.Perm G ∧
    ∀ p ∈ parts, is_cohesive_subgroup A p = true ∧ minSize ≤ p.length

lemma mem_combinations {l sub : List ℕ} {s : ℕ} :
    sub ∈ combinations l s ↔ sub.Sublist l ∧ sub.length = s := by
  simp [combinations, List.mem_filter, List.mem_sublists]

lemma mem_foldl_inter (A : List (ℕ × Finset ℕ)) (x : ℕ) :
    ∀ (l : List ℕ) (init : Finset ℕ),
      (x ∈ l.foldl (fun acc u => acc ∩ approvalsOf A u) init ↔
        x ∈ init ∧ ∀ u ∈ l, x ∈ approvalsOf A u) := by
  intro l
  induction l with
  | nil => intro init; simp
  | cons v rest ih =>
      intro init
      rw [List.foldl_cons, ih]
      simp only [Finset.mem_inter, List.forall_mem_cons]
      tauto

/-- Cohesion is having a commonly approved candidate (and being non-empty). -/
lemma is_cohesive_iff (A : List (ℕ × Finset ℕ)) (l : List ℕ) :
    is_cohesive_subgroup A l = true ↔
      l ≠ [] ∧ ∃ x, ∀ u ∈ l, x ∈ approvalsOf A u := by
  cases l with
  | nil => simp [is_cohesive_subgroup]
  | cons v rest =>
      simp only [is_cohesive_subgroup, decide_eq_true_eq, ne_eq,
        reduceCtorEq, not_false_eq_true, true_and]
      constructor
      · intro h
        obtain ⟨x, hx⟩ := Finset.nonempty_iff_ne_empty.mpr h
        rw [mem_foldl_inter] at hx
        refine ⟨x, ?_⟩
        intro u hu
        rcases List.mem_cons.mp hu with rfl | hu'
        · exact hx.1
        · exact hx.2 u hu'
      · rintro ⟨x, hx⟩
        apply Finset.nonempty_iff_ne_empty.mp
        refine ⟨x, ?_⟩
        rw [mem_foldl_inter]
        exact ⟨hx v (List.mem_cons_self v rest),
          fun u hu => hx u (List.mem_cons_of_mem v hu)⟩

/-- Cohesion only depends on the set of members. -/
lemma is_cohesive_congr (A : List (ℕ × Finset ℕ)) {l₁ l₂ : List ℕ}
    (h : ∀ x, x ∈ l₁ ↔ x ∈ l₂) :
    is_cohesive_subgroup A l₁ = is_cohesive_subgroup A l₂ := by
  have h₁ := is_cohesive_iff A l₁
  have h₂ := is_cohesive_iff A l₂
  have hne : l₁ ≠ [] ↔ l₂ ≠ [] := by
    constructor
    · intro h1
      obtain ⟨x, hx⟩ := List.exists_mem_of_ne_nil l₁ h1
      exact List.ne_nil_of_mem ((h x).mp hx)
    · intro h2
      obtain ⟨x, hx⟩ := List.exists_mem_of_ne_nil l₂ h2
      exact List.ne_nil_of_mem ((h x).mpr hx)
  cases hb₁ : is_cohesive_subgroup A l₁ with
  | true =>
      obtain ⟨hne₁, x, hx⟩ := h₁.mp hb₁
      exact (h₂.mpr ⟨hne.mp hne₁, x, fun u hu => hx u ((h u).mpr hu)⟩).symm
  | false =>
      cases hb₂ : is_cohesive_subgroup A l₂ with
      | true =>
          obtain ⟨hne₂, x, hx⟩ := h₂.mp hb₂
          have := h₁.mpr ⟨hne.mpr hne₂, x, fun u hu => hx u ((h u).mp hu)⟩
          rw [this] at hb₁
          exact absurd hb₁ (by simp)
      | false => rfl

lemma length_mul_le_sum_lengths {parts : List (List ℕ)} {m : ℕ}
    (h : ∀ p ∈ parts, m ≤ p.length) :
    parts.length * m ≤ (parts.map List.length).sum := by
  induction parts with
  | nil => simp
  | cons hd tl ih =>
      simp only [List.map_cons, List.sum_cons, List.length_cons]
      have h1 : m ≤ hd.length := h hd (List.mem_cons_self hd tl)
      have h2 : tl.length * m ≤ (tl.map List.length).sum :=
        ih (fun p hp => h p (List.mem_cons_of_mem hd hp))
      have h3 : (tl.length + 1) * m = tl.length * m + m := by ring
      rw [h3]
      omega

/-- Removing a sublist and keeping the rest is a permutation of a
duplicate-free list. -/
lemma sublist_filter_perm {G sub : List ℕ} (hG : G.Nodup)
    (hsub : sub.Sublist G) :
    (sub ++ G.filter (fun v => decide (v ∉ sub))).Perm G := by
  have h1 : (G.filter (fun v => decide (v ∈ sub)) ++
      G.filter (fun v => decide (v ∉ sub))).Perm G := by
    have h := List.filter_append_perm (fun v => decide (v ∈ sub)) G
    simpa [decide_not] using h
  have h2 : (G.filter (fun v => decide (v ∈ sub))).Perm sub := by
    apply (List.perm_ext_iff_of_nodup (hG.filter _) (hsub.nodup hG)).mpr
    intro x
    simp only [List.mem_filter, decide_eq_true_eq]
    exact ⟨fun hx => hx.2, fun hx => ⟨hsub.subset hx, hx⟩⟩
  exact ((h2.symm).append_right _).trans h1

/-- Soundness and completeness of the backtracking partition search: on a
duplicate-free group it returns `true` exactly when a cohesive partition of
the required shape exists. -/
lemma find_partition_recursive_iff (A : List (ℕ × Finset ℕ)) (minSize : ℕ) :
    ∀ (needed : ℕ) (G : List ℕ), G.Nodup →
      (find_partition_recursive A minSize G needed = true ↔
        IsCohesivePartition A minSize G needed) := by
  intro needed
  induction needed with
  | zero =>
      intro G _
      simp only [find_partition_recursive, beq_iff_eq, List.length_eq_zero]
      constructor
      · rintro rfl
        exact ⟨[], rfl, by simp, by simp⟩
      · rintro ⟨parts, hlen, hperm, _⟩
        rw [List.length_eq_zero] at hlen
        subst hlen
        have : ([] : List ℕ).Perm G := by simpa using hperm
        exact (this.symm.eq_nil)
  | succ m ih =>
      intro G hG
      constructor
      · intro h
        simp only [find_partition_recursive] at h
        by_cases hguard : G.length < (m + 1) * minSize
        · rw [if_pos hguard] at h
          exact absurd h (by simp)
        · rw [if_neg hguard] at h
          simp only [List.any_eq_true, Bool.and_eq_true] at h
          obtain ⟨size, hsize, sub, hsubmem, hcoh, hrec⟩ := h
          obtain ⟨hsublist, hsublen⟩ := mem_combinations.mp hsubmem
          have hGfil : (G.filter (fun v => decide (v ∉ sub))).Nodup := hG.filter _
          obtain ⟨parts, hplen, hpperm, hpcond⟩ := (ih _ hGfil).mp hrec
          refine ⟨sub :: parts, by simp [hplen], ?_, ?_⟩
          · rw [List.flatten_cons]
            exact (hpperm.append_left sub).trans (sublist_filter_perm hG hsublist)
          · rintro p hp
            rcases List.mem_cons.mp hp with rfl | hp'
            · refine ⟨hcoh, ?_⟩
              rw [hsublen]
              obtain ⟨i2, _, rfl⟩ := List.mem_range'.mp hsize
              omega
            · exact hpcond p hp'
      · rintro ⟨parts, hplen, hpperm, hpcond⟩
        cases parts with
        | nil => simp at hplen
        | cons p rest =>
            have hplen' : rest.length = m := by simpa using hplen
            rw [List.flatten_cons] at hpperm
            have hflnd : (p ++ rest.flatten).Nodup := hpperm.nodup_iff.mpr hG
            have hpnd : p.Nodup := (List.nodup_append.mp hflnd).1
            have hrestnd : rest.flatten.Nodup := (List.nodup_append.mp hflnd).2.1
            have hdisj : p.Disjoint rest.flatten := (List.nodup_append.mp hflnd).2.2
            have hpsub : ∀ x ∈ p, x ∈ G := fun x hx =>
              hpperm.subset (List.mem_append_left _ hx)
            have hsum : G.length = p.length + (rest.map List.length).sum := by
              have h1 := hpperm.length_eq
              simp only [List.length_append, List.length_flatten] at h1
              omega
            have hrest_ge : rest.length * minSize ≤ (rest.map List.length).sum :=
              length_mul_le_sum_lengths
                (fun q hq => (hpcond q (List.mem_cons_of_mem p hq)).2)
            have hpmin : minSize ≤ p.length :=
              (hpcond p (List.mem_cons_self p rest)).2
            have hpcoh : is_cohesive_subgroup A p = true :=
              (hpcond p (List.mem_cons_self p rest)).1
            have hguard : ¬ (G.length < (m + 1) * minSize) := by
              have h3 : (m + 1) * minSize = m * minSize + minSize := by ring
              rw [hplen'] at hrest_ge
              omega
            have hsub_sublist : (G.filter (fun v => decide (v ∈ p))).Sublist G :=
              List.filter_sublist G
            have hsub_perm : (G.filter (fun v => decide (v ∈ p))).Perm p := by
              apply (List.perm_ext_iff_of_nodup (hG.filter _) hpnd).mpr
              intro x
              simp only [List.mem_filter, decide_eq_true_eq]
              exact ⟨fun hx => hx.2, fun hx => ⟨hpsub x hx, hx⟩⟩
            have hsublen : (G.filter (fun v => decide (v ∈ p))).length = p.length :=
              hsub_perm.length_eq
            have hsubcoh : is_cohesive_subgroup A
                (G.filter (fun v => decide (v ∈ p))) = true := by
              rw [is_cohesive_congr A (fun x => hsub_perm.mem_iff)]
              exact hpcoh
            have hfeq : ∀ x,
                (x ∈ G.filter (fun v =>
                  decide (v ∉ G.filter (fun w => decide (w ∈ p)))) ↔
                 x ∈ rest.flatten) := by
              intro x
              simp only [List.mem_filter, decide_eq_true_eq]
              constructor
              · rintro ⟨hxG, hxnsub⟩
                have hx2 : x ∈ p ++ rest.flatten := hpperm.mem_iff.mpr hxG
                rcases List.mem_append.mp hx2 with hxp | hxr
                · exact absurd ⟨hxG, hxp⟩ hxnsub
                · exact hxr
              · intro hx
                have hxG : x ∈ G := hpperm.subset (List.mem_append_right _ hx)
                exact ⟨hxG, fun hxsub => hdisj hxsub.2 hx⟩
            have hrec : find_partition_recursive A minSize
                (G.filter (fun v =>
                  decide (v ∉ G.filter (fun w => decide (w ∈ p))))) m = true := by
              apply (ih _ (hG.filter _)).mpr
              refine ⟨rest, hplen', ?_, fun q hq => hpcond q (List.mem_cons_of_mem p hq)⟩
              exact (List.perm_ext_iff_of_nodup hrestnd (hG.filter _)).mpr
                (fun x => (hfeq x).symm)
            simp only [find_partition_recursive]
            rw [if_neg hguard]
            simp only [List.any_eq_true, Bool.and_eq_true]
            refine ⟨p.length, ?_,
              G.filter (fun v => decide (v ∈ p)),
              mem_combinations.mpr ⟨hsub_sublist, hsublen⟩, hsubcoh, hrec⟩
            apply List.mem_range'.mpr
            refine ⟨p.length - minSize, ?_, by omega⟩
            rw [hplen'] at hrest_ge
            omega

lemma can_partition_iff (G : List ℕ) (A : List (ℕ × Finset ℕ)) (m : ℕ)
    (quota : ℚ) (hG : G.Nodup) :
    can_partition_into_cohesive_subgroups G A m quota = true ↔
      ((m : ℚ) * quota ≤ (G.length : ℚ) ∧
        IsCohesivePartition A (ratToNat quota) G m) := by
  unfold can_partition_into_cohesive_subgroups
  by_cases hguard : (G.length : ℚ) < (m : ℚ) * quota
  · rw [if_pos hguard]
    constructor
    · intro h; exact absurd h (by simp)
    · rintro ⟨hle, _⟩; exact absurd hguard (not_lt.mpr hle)
  · rw [if_neg hguard, find_partition_recursive_iff A (ratToNat quota) m G hG]
    exact ⟨fun h => ⟨not_lt.mp hguard, h⟩, fun h => h.2⟩

/-- **C2 (amended).** For a well-formed profile (distinct voters, the passed
`num_voters` matching the profile) and positive committee size, `check_ejr`
returns `False` iff some `i ∈ 1..committee_size` and some voter subset of
size at least `i * quota` can be partitioned into `i` disjoint cohesive
subgroups each of size at least `int(quota)` (the source's truncated quota),
covering the subset, while fewer than `i` of the subset's pooled approvals
sit in the committee. -/
theorem check_ejr_false_iff (A : List (ℕ × Finset ℕ)) (W : Finset ℕ)
    (n k : ℕ) (_hk : 0 < k) (hnd : (A.map Prod.fst).Nodup)
    (hn : n = A.length) :
    check_ejr A W n k = false ↔
      ∃ i, 1 ≤ i ∧ i ≤ k ∧ ∃ G, G.Sublist (A.map Prod.fst) ∧
        (i : ℚ) * ((n : ℚ) / (k : ℚ)) ≤ (G.length : ℚ) ∧
        IsCohesivePartition A (ratToNat ((n : ℚ) / (k : ℚ))) G i ∧
        (unionApprovals A G ∩ W).card < i := by
  unfold check_ejr
  simp only [decide_eq_false_iff_not]
  push_neg
  constructor
  · rintro ⟨i, hi, gs, _, G, hGmem, hpart, hcard⟩
    obtain ⟨hsub, _⟩ := mem_combinations.mp hGmem
    have hGnd : G.Nodup := hsub.nodup hnd
    have h2 := (can_partition_iff G A i _ hGnd).mp hpart
    obtain ⟨i0, hi0, rfl⟩ := List.mem_range'.mp hi
    exact ⟨1 + 1 * i0, by omega, by omega, G, hsub, h2.1, h2.2, hcard⟩
  · rintro ⟨i, hi1, hik, G, hsub, hq, hpart, hcard⟩
    have hGnd : G.Nodup := hsub.nodup hnd
    refine ⟨i, List.mem_range'.mpr ⟨i - 1, by omega, by omega⟩, G.length, ?_, G,
      mem_combinations.mpr ⟨hsub, rfl⟩,
      (can_partition_iff G A i _ hGnd).mpr ⟨hq, hpart⟩, hcard⟩
    unfold groupSizeRange
    apply List.mem_range'.mpr
    have hle : ratToNat ((i : ℚ) * ((n : ℚ) / (k : ℚ))) ≤ G.length := by
      rw [ratToNat_eq_natFloor]
      have := Nat.floor_le_floor (α := ℚ) hq
      rwa [Nat.floor_natCast] at this
    have hle2 : G.length ≤ n := by
      rw [hn]
      simpa using hsub.length_le
    exact ⟨G.length - ratToNat ((i : ℚ) * ((n : ℚ) / (k : ℚ))), by omega, by omega⟩

/-- Witness for `check_ejr_false_iff` on a one-voter profile with an empty
committee. -/
theorem check_ejr_false_iff_witness :
    0 < 1 ∧
    (([(1, ({1} : Finset ℕ))].map Prod.fst).Nodup) ∧
    (1 = [(1, ({1} : Finset ℕ))].length) ∧
      (check_ejr [(1, {1})] ∅ 1 1 = false ↔
        ∃ i : ℕ, 1 ≤ i ∧ i ≤ 1 ∧
          ∃ G, G.Sublist ([(1, ({1} : Finset ℕ))].map Prod.fst) ∧
          (i : ℚ) * (((1 : ℕ) : ℚ) / ((1 : ℕ) : ℚ)) ≤ (G.length : ℚ) ∧
          IsCohesivePartition [(1, {1})] (ratToNat (((1 : ℕ) : ℚ) / ((1 : ℕ) : ℚ))) G i ∧
          (unionApprovals [(1, {1})] G ∩ ∅).card < i) :=
  ⟨by decide, by decide, rfl,
    check_ejr_false_iff [(1, {1})] ∅ 1 1 (by decide) (by decide) rfl⟩

/-- The EJR failure condition exactly as the claim words it (spec-side
definition, to be compared with `check_ejr`): some `ℓ ∈ 1..committee_size`
and a voter subset of size at least `⌈ℓ * quota⌉` that can be partitioned
into `ℓ` disjoint cohesive subgroups, each of size at least the
**real-valued** `quota`, with fewer than `ℓ` committee members among the
subset's pooled approvals. -/
def ClaimEjrViolation (A : List (ℕ × Finset ℕ)) (W : Finset ℕ) (n k : ℕ) : Prop :=
  ∃ i, 1 ≤ i ∧ i ≤ k ∧ ∃ G, G.Sublist (A.map Prod.fst) ∧
    ⌈(i : ℚ) * ((n : ℚ) / (k : ℚ))⌉₊ ≤ G.length ∧
    (∃ parts : List (List ℕ), parts.length = i ∧ parts.flatten.Perm G ∧
      ∀ p ∈ parts, is_cohesive_subgroup A p = true ∧
        (n : ℚ) / (k : ℚ) ≤ (p.length : ℚ)) ∧
    (unionApprovals A G ∩ W).card < i

/-- **C2 (counterexample).** On `truncProfile` (5 voters, committee size 3,
quota `5/3`) with committee `{y,z,w}`, `check_ejr` returns `False` — it
accepts the partition `{v1} ∪ {v2,v3,v4}` whose part `{v1}` only meets the
truncated quota `int(5/3) = 1` — although no violation in the claim's sense
(all subgroups of size `≥ 5/3`) exists. -/
theorem check_ejr_claim_cex :
    check_ejr truncProfile {1, 2, 3} 5 3 = false ∧
    ¬ ClaimEjrViolation truncProfile {1, 2, 3} 5 3 := by
  constructor
  · rw [← check_ejr_ev_eq truncProfile {1, 2, 3} (by norm_num)]
    decide
  · rintro ⟨i, hi1, hik, G, hsub, hsize, ⟨parts, hplen, hpperm, hpcond⟩, hcard⟩
    have hvoters : truncProfile.map Prod.fst = [1, 2, 3, 4, 5] := rfl
    rw [hvoters] at hsub
    have hGnd : G.Nodup := hsub.nodup (by decide)
    have hpart2 : IsCohesivePartition truncProfile 2 G i := by
      refine ⟨parts, hplen, hpperm, fun p hp => ⟨(hpcond p hp).1, ?_⟩⟩
      have h1 := (hpcond p hp).2
      have h2 : ((5 : ℕ) : ℚ) ≤ (p.length : ℚ) * ((3 : ℕ) : ℚ) :=
        (div_le_iff₀ (by norm_num)).mp h1
      have h3 : 5 ≤ p.length * 3 := by exact_mod_cast h2
      omega
    have hfpr : find_partition_recursive truncProfile 2 G i = true :=
      (find_partition_recursive_iff truncProfile 2 i G hGnd).mpr hpart2
    have hsizeN : i * 5 ≤ G.length * 3 := by
      have h1 : (i : ℚ) * (((5 : ℕ) : ℚ) / ((3 : ℕ) : ℚ)) ≤ (G.length : ℚ) :=
        Nat.ceil_le.mp hsize
      exact (mul_quota_le_iff (by norm_num) i 5 G.length).mp h1
    have hdec : ∀ j ∈ List.range' 1 3, ∀ H ∈ List.sublists [1, 2, 3, 4, 5],
        j * 5 ≤ H.length * 3 →
          find_partition_recursive truncProfile 2 H j = true →
            j ≤ (unionApprovals truncProfile H ∩ {1, 2, 3}).card := by decide
    have hGmem : G ∈ List.sublists [1, 2, 3, 4, 5] := List.mem_sublists.mpr hsub
    have himem : i ∈ List.range' 1 3 :=
      List.mem_range'.mpr ⟨i - 1, by omega, by omega⟩
    exact absurd (hdec i himem G hGmem hsizeN hfpr) (not_le.mpr hcard)

/-!
## The ranking enumeration of `prefix-jr.py` (C9) -/

/-- Characterisation of `branch_all`: a list is produced from `(built,
remaining)` iff it extends `built` by an arrangement of exactly the
`remaining` alternatives in which the element placed at depth `t` is
eligible according to `satisfies_jr` at prefix length `built.length + t + 1`. -/
lemma branch_all_mem (preferences : List (ℕ × List ℕ)) :
    ∀ (n : ℕ) (remaining : List ℕ), remaining.length = n →
      ∀ (built r : List ℕ), remaining.Nodup →
        (r ∈ branch_all preferences built remaining ↔
          ∃ suffix : List ℕ, r = built ++ suffix ∧ suffix.Nodup ∧
            (∀ x, x ∈ suffix ↔ x ∈ remaining) ∧
            ∀ t, (ht : t < suffix.length) →
              suffix.get ⟨t, ht⟩ ∈ satisfies_jr preferences (built.length + t + 1)) := by
  intro n
  induction n using Nat.strong_induction_on with
  | _ n ih =>
      intro remaining hlen built r hnd
      rw [branch_all]
      by_cases hemp : remaining.isEmpty
      · rw [if_pos hemp]
        have hrem : remaining = [] := List.isEmpty_iff.mp hemp
        subst hrem
        simp only [List.mem_singleton]
        constructor
        · rintro rfl
          exact ⟨[], by simp, List.nodup_nil, by simp, by intro t ht; simp at ht⟩
        · rintro ⟨suffix, rfl, _, hmem, _⟩
          have : suffix = [] := by
            apply List.eq_nil_iff_forall_not_mem.mpr
            intro x hx
            exact absurd ((hmem x).mp hx) (List.not_mem_nil x)
          rw [this, List.append_nil]
      · rw [if_neg hemp]
        have hrem_ne : remaining ≠ [] := fun h => hemp (by rw [h]; rfl)
        simp only [List.mem_flatMap, List.mem_attach, true_and, Subtype.exists]
        constructor
        · rintro ⟨x, hx, hr⟩
          have hxrem : x ∈ remaining := (List.mem_filter.mp hx).1
          have hxjr : x ∈ satisfies_jr preferences (built.length + 1) := by
            have := (List.mem_filter.mp hx).2
            simpa using this
          have herase_len : (remaining.erase x).length < n := by
            have hpos0 : 0 < remaining.length := List.length_pos_of_mem hxrem
            rw [List.length_erase_of_mem hxrem]
            omega
          have herase_nd : (remaining.erase x).Nodup := hnd.erase x
          obtain ⟨suffix', hr', hnd', hmem', hpos'⟩ :=
            (ih _ herase_len (remaining.erase x) rfl (built ++ [x]) r herase_nd).mp hr
          have hxnotin : x ∉ suffix' := by
            intro hxs
            have := (hmem' x).mp hxs
            exact absurd (hnd.mem_erase_iff.mp this).1 (by simp)
          refine ⟨x :: suffix', by simpa using hr',
            List.nodup_cons.mpr ⟨hxnotin, hnd'⟩, ?_, ?_⟩
          · intro y
            rw [List.mem_cons, hmem' y, hnd.mem_erase_iff]
            constructor
            · rintro (rfl | ⟨_, hy⟩)
              · exact hxrem
              · exact hy
            · intro hy
              by_cases hyx : y = x
              · exact Or.inl hyx
              · exact Or.inr ⟨hyx, hy⟩
          · intro t ht
            match t with
            | 0 => simpa using hxjr
            | t' + 1 =>
                have ht' : t' < suffix'.length := by simpa using ht
                have := hpos' t' ht'
                have hidx : (built ++ [x]).length + t' + 1 =
                    built.length + (t' + 1) + 1 := by
                  rw [List.length_append, List.length_singleton]
                  omega
                rw [hidx] at this
                simpa using this
        · rintro ⟨suffix, rfl, hndsuf, hmem, hpos⟩
          have hsuf_ne : suffix ≠ [] := by
            intro h
            obtain ⟨x, hx⟩ := List.exists_mem_of_ne_nil remaining hrem_ne
            have := (hmem x).mpr hx
            rw [h] at this
            exact absurd this (List.not_mem_nil x)
          obtain ⟨x, suffix', rfl⟩ := List.exists_cons_of_ne_nil hsuf_ne
          have hxrem : x ∈ remaining := (hmem x).mp (List.mem_cons_self x suffix')
          have hxjr : x ∈ satisfies_jr preferences (built.length + 1) := by
            have := hpos 0 (by simp)
            simpa using this
          have hxvalid : x ∈ remaining.filter
              (fun a => decide (a ∈ satisfies_jr preferences (built.length + 1))) := by
            rw [List.mem_filter]
            exact ⟨hxrem, by simpa using hxjr⟩
          refine ⟨x, hxvalid, ?_⟩
          have herase_len : (remaining.erase x).length < n := by
            have hpos0 : 0 < remaining.length := List.length_pos_of_mem hxrem
            rw [List.length_erase_of_mem hxrem]
            omega
          have herase_nd : (remaining.erase x).Nodup := hnd.erase x
          apply (ih _ herase_len (remaining.erase x) rfl (built ++ [x])
            (built ++ x :: suffix') herase_nd).mpr
          have hxnotin : x ∉ suffix' := (List.nodup_cons.mp hndsuf).1
          refine ⟨suffix', by simp, (List.nodup_cons.mp hndsuf).2, ?_, ?_⟩
          · intro y
            rw [hnd.mem_erase_iff]
            constructor
            · intro hy
              have hyx : y ≠ x := fun h => hxnotin (h ▸ hy)
              exact ⟨hyx, (hmem y).mp (List.mem_cons_of_mem x hy)⟩
            · rintro ⟨hyx, hy⟩
              rcases List.mem_cons.mp ((hmem y).mpr hy) with rfl | hy'
              · exact absurd rfl hyx
              · exact hy'
          · intro t ht
            have ht2 : t + 1 < (x :: suffix').length := by simpa using ht
            have := hpos (t + 1) ht2
            have hidx : built.length + (t + 1) + 1 =
                (built ++ [x]).length + t + 1 := by
              rw [List.length_append, List.length_singleton]
              omega
            rw [hidx] at this
            simpa using this

lemma mem_alts_iff (preferences : List (ℕ × List ℕ)) (x : ℕ) :
    x ∈ ((preferences.map Prod.snd).flatten).dedup ↔
      ∃ p ∈ preferences, x ∈ p.2 := by
  rw [List.mem_dedup, List.mem_flatten]
  constructor
  · rintro ⟨l, hl, hx⟩
    obtain ⟨p, hp, rfl⟩ := List.mem_map.mp hl
    exact ⟨p, hp, hx⟩
  · rintro ⟨p, hp, hx⟩
    exact ⟨p.2, List.mem_map.mpr ⟨p, hp, rfl⟩, hx⟩

/-- **C9 (amended).** A list is returned by the ranking enumeration iff it is
a duplicate-free arrangement of exactly the alternatives occurring in the
preferences in which, for every prefix length `t`, the element at rank
`t + 1` is eligible according to `satisfies_jr` on the top-`(t+1)` approval
profile (the code computes the step's eligible set with `k = len(prefix)+1`,
not `k = len(prefix)`). -/
theorem find_all_rankings_jr_mem (preferences : List (ℕ × List ℕ))
    (r : List ℕ) :
    r ∈ find_all_rankings_jr preferences ↔
      (r.Nodup ∧ (∀ x, (x ∈ r ↔ ∃ p ∈ preferences, x ∈ p.2)) ∧
        ∀ t, (ht : t < r.length) →
          r.get ⟨t, ht⟩ ∈ satisfies_jr preferences (t + 1)) := by
  unfold find_all_rankings_jr
  rw [branch_all_mem preferences (((preferences.map Prod.snd).flatten).dedup).length
    (((preferences.map Prod.snd).flatten).dedup) rfl [] r (List.nodup_dedup _)]
  constructor
  · rintro ⟨sfx, hr, hnd, hmem, hpos⟩
    subst hr
    refine ⟨hnd, ?_, ?_⟩
    · intro x
      rw [← mem_alts_iff preferences x]
      exact hmem x
    · intro t ht
      simpa using hpos t ht
  · rintro ⟨hnd, hmem, hpos⟩
    refine ⟨r, by simp, hnd, ?_, ?_⟩
    · intro x
      rw [hmem x, mem_alts_iff preferences x]
    · intro t ht
      simpa using hpos t ht

lemma satisfies_jr_tiny_one : satisfies_jr [(1, [10])] 1 = {10} := by
  norm_num [satisfies_jr, find_cohesive_groups, get_approval_sets, altsList,
    approversOf, approvalListOf]
  decide

/-- **C9 (counterexample).** On the one-voter profile `u1 ↦ [a]` the
enumeration returns the full ranking `[a]`, yet its rank-1 element is *not*
in the eligible set computed from the top-0 approval profile (which is
empty): the claim's "top-k for rank k+1" indexing does not match the code,
which uses the top-(k+1) profile. -/
theorem rank_offset_cex :
    (([10] : List ℕ) ∈ find_all_rankings_jr [(1, [10])]) ∧
    (10 : ℕ) ∉ satisfies_jr [(1, [10])] 0 := by
  constructor
  · unfold find_all_rankings_jr
    have halts : ((([(1, [10])] : List (ℕ × List ℕ)).map Prod.snd).flatten).dedup
        = [10] := rfl
    rw [halts]
    apply (branch_all_mem [(1, [10])] 1 [10] rfl [] [10] (by decide)).mpr
    refine ⟨[10], rfl, by decide, fun x => Iff.rfl, ?_⟩
    intro t ht
    have ht0 : t = 0 := by
      have h2 : t < 1 := by simpa using ht
      omega
    subst ht0
    have h1 : ([] : List ℕ).length + 0 + 1 = 1 := rfl
    rw [h1, satisfies_jr_tiny_one]
    exact (by decide : (10 : ℕ) ∈ ({10} : Finset ℕ))
  · have h0 : satisfies_jr [(1, [10])] 0 = ∅ := rfl
    rw [h0]
    exact Finset.not_mem_empty 10
